import Mathlib

/-!
Verification of the burn-ndarray CPU tensor backend
(`src/burn-ndarray/src/ops/tensor.rs`, `impl TensorOps for NdArrayBackend`).

The backend is generic over an element type `E : NdArrayElement`; we model the
signed numeric instantiation with unbounded integers (`Int`), which captures the
exact arithmetic of the signed element types.  A tensor of rank `D` with an
`ndarray` storage is modelled as a dynamic-rank shape (list of per-axis extents)
together with the flat row-major storage list; `Data<E, D>` (the value/shape
export form) is modelled the same way.  The `i64` index elements produced by
`argmax`/`argmin` are likewise modelled as `Int`.

Operations whose bodies live in `ops/tensor.rs` are translated directly from
that file.  Operations that `ops/tensor.rs` merely delegates to other crates of
the repository (`NdArrayMathOps`, `NdArrayTensor::from_data`, `Data::random`,
`zeros`) are modelled from the specification and carry a
`Modelled from the spec:` doc comment.
-/

namespace BurnNdArray

/-- Device marker of the CPU backend: a singleton value `Cpu`. -/
inductive NdArrayDevice where
  | Cpu
deriving DecidableEq, Repr

/-- The export form of a tensor: a flat sequence of element values plus an
accompanying shape descriptor (`Data<E, D>` with `value` and `shape` fields). -/
structure Data (α : Type) where
  value : List α
  shape : List Nat
deriving DecidableEq, Repr

/-- A backend tensor: per-axis extents plus flat row-major storage
(`NdArrayTensor<E, D>` owning its `array`). -/
structure NdArrayTensor (α : Type) where
  shape : List Nat
  data : List α
deriving DecidableEq, Repr

/-- The element-count invariant of the data model:
`element_count(shape) == array.len()`. -/
abbrev wf {α : Type} (t : NdArrayTensor α) : Prop :=
  t.data.length = t.shape.prod

/-- Well-formedness of an export value/shape pair. -/
abbrev Data.wf {α : Type} (d : Data α) : Prop :=
  d.value.length = d.shape.prod

/-- Modelled from the spec: `NdArrayTensor::from_data` (in `tensor.rs` of the
crate root, not under `src/`) builds a tensor from the canonical flat
value/shape export form (spec section 6).  `TensorOps::from_data` delegates to
it, ignoring the device. -/
def from_data {α : Type} (d : Data α) (_device : NdArrayDevice) : NdArrayTensor α :=
  ⟨d.shape, d.value⟩

/-- `TensorOps::to_data`: collect the storage values in iteration order together
with the tensor shape. -/
def to_data {α : Type} (t : NdArrayTensor α) : Data α :=
  ⟨t.data, t.shape⟩

/-- Modelled from the spec: `NdArrayBackend::zeros` (not under `src/`) creates
a tensor of the given shape filled with the element-type constant 0
(spec section 4.1 names the 0 constant; section 4.2 `empty` delegation). -/
def zeros (shape : List Nat) (_device : NdArrayDevice) : NdArrayTensor Int :=
  ⟨shape, List.replicate shape.prod 0⟩

/-- `TensorOps::empty`: delegates to `NdArrayBackend::zeros`. -/
def empty (shape : List Nat) (device : NdArrayDevice) : NdArrayTensor Int :=
  zeros shape device

/-- Modelled from the spec: `NdArrayMathOps::add` (not under `src/`) is the
elementwise tensor-tensor addition over identical shapes (spec section 4.2). -/
def add (lhs rhs : NdArrayTensor Int) : NdArrayTensor Int :=
  ⟨lhs.shape, List.zipWith (· + ·) lhs.data rhs.data⟩

/-- Modelled from the spec: `NdArrayMathOps::sub` (not under `src/`) is the
elementwise tensor-tensor subtraction over identical shapes (spec section 4.2). -/
def sub (lhs rhs : NdArrayTensor Int) : NdArrayTensor Int :=
  ⟨lhs.shape, List.zipWith (· - ·) lhs.data rhs.data⟩

/-- Modelled from the spec: `NdArrayMathOps::mul` (not under `src/`) is the
elementwise tensor-tensor multiplication over identical shapes (spec section 4.2). -/
def mul (lhs rhs : NdArrayTensor Int) : NdArrayTensor Int :=
  ⟨lhs.shape, List.zipWith (· * ·) lhs.data rhs.data⟩

/-- Modelled from the spec: `NdArrayMathOps::mul_scalar` (not under `src/`)
multiplies every element by the scalar (spec section 4.2). -/
def mul_scalar (lhs : NdArrayTensor Int) (rhs : Int) : NdArrayTensor Int :=
  ⟨lhs.shape, lhs.data.map (· * rhs)⟩

/-- `TensorOps::neg`: `Self::mul_scalar(tensor, (-1f32).to_elem::<E>())`,
multiplication of every element by -1. -/
def neg (tensor : NdArrayTensor Int) : NdArrayTensor Int :=
  mul_scalar tensor (-1)

/-- Modelled from the spec: `NdArrayMathOps::div` (not under `src/`) is the
elementwise tensor-tensor division over identical shapes (spec section 4.2). -/
def div (lhs rhs : NdArrayTensor Int) : NdArrayTensor Int :=
  ⟨lhs.shape, List.zipWith (· / ·) lhs.data rhs.data⟩

/-- Modelled from the spec: `NdArrayMathOps::add_scalar` (not under `src/`)
adds the scalar to every element (spec section 4.2). -/
def add_scalar (lhs : NdArrayTensor Int) (rhs : Int) : NdArrayTensor Int :=
  ⟨lhs.shape, lhs.data.map (· + rhs)⟩

/-- Modelled from the spec: `NdArrayMathOps::sub_scalar` (not under `src/`)
subtracts the scalar from every element (spec section 4.2). -/
def sub_scalar (lhs : NdArrayTensor Int) (rhs : Int) : NdArrayTensor Int :=
  ⟨lhs.shape, lhs.data.map (· - rhs)⟩

/-- Modelled from the spec: `NdArrayMathOps::div_scalar` (not under `src/`)
divides every element by the scalar (spec section 4.2). -/
def div_scalar (lhs : NdArrayTensor Int) (rhs : Int) : NdArrayTensor Int :=
  ⟨lhs.shape, lhs.data.map (· / rhs)⟩

/-- Modelled from the spec: `NdArrayMathOps::sum` (not under `src/`) collapses
the whole tensor to a rank-1, length-1 tensor holding the total
(spec section 4.3). -/
def sum (t : NdArrayTensor Int) : NdArrayTensor Int :=
  ⟨[1], [t.data.sum]⟩

/-- Modelled from the spec: `NdArrayMathOps::mean` (not under `src/`) collapses
the whole tensor to a rank-1, length-1 tensor holding the mean; the integer
instantiation divides the total by the element count (spec section 4.3). -/
def mean (t : NdArrayTensor Int) : NdArrayTensor Int :=
  ⟨[1], [t.data.sum / Int.ofNat t.data.length]⟩

/-- `TensorOps::detach`: the identity on this backend. -/
def detach (t : NdArrayTensor Int) : NdArrayTensor Int := t

/-- `TensorOps::to_device`: the identity on this single-device CPU backend. -/
def to_device (t : NdArrayTensor Int) (_device : NdArrayDevice) : NdArrayTensor Int := t

/-- The shared shape of `TensorOps::exp`, `log`, `log1p`, `powf`, `sqrt`,
`cos`, `sin`, `tanh`, `erf`, `to_full_precision` and `from_full_precision`:
each maps a fixed element-level function (supplied by the element trait or
`libm`, both outside `src/`) over the storage via `mapv`/`mapv_into`. -/
def mapvUnary (f : Int → Int) (t : NdArrayTensor Int) : NdArrayTensor Int :=
  ⟨t.shape, t.data.map f⟩

/-! Row-major index arithmetic used by the view-producing operations. -/

/-- Row-major coordinates of a flat storage index in a shape. -/
def unflatten (shape : List Nat) (i : Nat) : List Nat :=
  match shape with
  | [] => []
  | _ :: rest => (i / rest.prod) :: unflatten rest (i % rest.prod)

/-- Row-major flat storage index of a coordinate list in a shape. -/
def flattenIdx (shape coords : List Nat) : Nat :=
  match shape, coords with
  | _ :: srest, c :: crest => c * srest.prod + flattenIdx srest crest
  | _, _ => 0

/-- Exchange the entries at two positions of a list. -/
def swapList (l : List Nat) (i j : Nat) : List Nat :=
  (l.set i (l.getD j 0)).set j (l.getD i 0)

/-- `TensorOps::swap_dims`: `array.swap_axes(dim1, dim2)` of the `ndarray`
crate exchanges the two axes; on the contiguous row-major model this
materializes the transposition: each output position reads the input at the
back-swapped coordinates. -/
def swap_dims (t : NdArrayTensor Int) (dim1 dim2 : Nat) : NdArrayTensor Int :=
  let outShape := swapList t.shape dim1 dim2
  ⟨outShape,
    (List.range outShape.prod).map (fun i =>
      t.data.getD (flattenIdx t.shape (swapList (unflatten outShape i) dim1 dim2)) 0)⟩

/-- Modelled from the spec: `NdArrayOps::reshape` (not under `src/`) changes
the shape while preserving total element count and storage order, failing when
the element counts differ (spec section 4.5). -/
def reshape (t : NdArrayTensor Int) (shape : List Nat) : Option (NdArrayTensor Int) :=
  if t.data.length = shape.prod then some ⟨shape, t.data⟩ else none

/-- Modelled from the spec: `NdArrayOps::index` (not under `src/`) restricts
the tensor to per-axis half-open ranges over the leading axes, remaining axes
taken in full (spec section 4.5).  A range is a `(start, stop)` pair. -/
def index (t : NdArrayTensor Int) (ranges : List (Nat × Nat)) : NdArrayTensor Int :=
  let full := ranges ++ (t.shape.drop ranges.length).map (fun n => (0, n))
  let outShape := full.map (fun r => r.2 - r.1)
  ⟨outShape,
    (List.range outShape.prod).map (fun i =>
      t.data.getD
        (flattenIdx t.shape (List.zipWith (fun c r => r.1 + c) (unflatten outShape i) full)) 0)⟩

/-- Modelled from the spec: `NdArrayOps::index_assign` (not under `src/`)
writes the value tensor into the addressed sub-region, returning the updated
tensor (spec section 4.5). -/
def index_assign (t : NdArrayTensor Int) (ranges : List (Nat × Nat))
    (value : NdArrayTensor Int) : NdArrayTensor Int :=
  let full := ranges ++ (t.shape.drop ranges.length).map (fun n => (0, n))
  let subShape := full.map (fun r => r.2 - r.1)
  ⟨t.shape,
    (List.range t.shape.prod).map (fun j =>
      let c := unflatten t.shape j
      if (List.zipWith (fun ci r => decide (r.1 ≤ ci ∧ ci < r.2)) c full).all (fun b => b) then
        value.data.getD (flattenIdx subShape (List.zipWith (fun ci r => ci - r.1) c full)) 0
      else t.data.getD j 0)⟩

/-- Modelled from the spec: `NdArrayOps::cat` (not under `src/`) concatenates
same-rank tensors along one axis; every other axis must agree, the output axis
extent is the sum of the inputs, and input order is preserved (spec
section 4.5).  On row-major storage: for each index of the outer block, emit
each input tensor's corresponding `extent * inner` slab in input order. -/
def cat (tensors : List (NdArrayTensor Int)) (dim : Nat) : NdArrayTensor Int :=
  let t0 := tensors.headD ⟨[], []⟩
  let outer := (t0.shape.take dim).prod
  let inner := (t0.shape.drop (dim + 1)).prod
  let total := (tensors.map (fun t => t.shape.getD dim 0)).sum
  ⟨t0.shape.set dim total,
    ((List.range outer).map (fun o =>
      (tensors.map (fun t =>
        let block := t.shape.getD dim 0 * inner
        (t.data.drop (o * block)).take block)).flatten)).flatten⟩

/-- Modelled from the spec: `matmul` reshapes both operands into a
batch-of-matrices view (trailing two axes are the matrix, leading axes
flattened into the batch), multiplies per batch slice with sum-of-products
accumulation, broadcasting a batch of size one on the right, and restores the
leading axes with the trailing two replaced by (lhs rows, rhs cols)
(spec section 4.4; `BatchMatrix` lives outside `src/`). -/
def matmul (lhs rhs : NdArrayTensor Int) : NdArrayTensor Int :=
  let d := lhs.shape.length
  let m := lhs.shape.getD (d - 2) 1
  let k := lhs.shape.getD (d - 1) 1
  let n := rhs.shape.getD (rhs.shape.length - 1) 1
  let rhsBatch := (rhs.shape.take (rhs.shape.length - 2)).prod
  let lhsBatch := (lhs.shape.take (d - 2)).prod
  let outShape := lhs.shape.take (d - 2) ++ [m, n]
  ⟨outShape,
    (List.range (lhsBatch * (m * n))).map (fun idx =>
      let b := idx / (m * n)
      let r := idx % (m * n) / n
      let c := idx % n
      let br := if rhsBatch = 1 then 0 else b
      ((List.range k).map (fun j =>
        lhs.data.getD (b * (m * k) + r * k + j) 0 *
          rhs.data.getD (br * (k * n) + j * n + c) 0)).sum)⟩

/-- `TensorOps::mask_fill`: build `mask_mul` (0 where the mask is true, 1 where
false) and `mask_add` (`value` where true, 0 where false), then return
`tensor.array * mask_mul + mask_add` elementwise. -/
def mask_fill (tensor : NdArrayTensor Int) (mask : NdArrayTensor Bool) (value : Int) :
    NdArrayTensor Int :=
  let mask_mul := mask.data.map (fun x => match x with | true => 0 | false => 1)
  let mask_add := mask.data.map (fun x => match x with | true => value | false => 0)
  ⟨tensor.shape, List.zipWith (· + ·) (List.zipWith (· * ·) tensor.data mask_mul) mask_add⟩

/-- `TensorOps::equal_scalar`: map `a == rhs` over the storage. -/
def equal_scalar (lhs : NdArrayTensor Int) (rhs : Int) : NdArrayTensor Bool :=
  ⟨lhs.shape, lhs.data.map (fun a => decide (a = rhs))⟩

/-- `TensorOps::equal`: subtract the operands, then compare against 0. -/
def equal (lhs rhs : NdArrayTensor Int) : NdArrayTensor Bool :=
  equal_scalar (sub lhs rhs) 0

/-- `TensorOps::greater_scalar`: map `a > rhs` over the storage. -/
def greater_scalar (lhs : NdArrayTensor Int) (rhs : Int) : NdArrayTensor Bool :=
  ⟨lhs.shape, lhs.data.map (fun a => decide (a > rhs))⟩

/-- `TensorOps::greater`: subtract the operands, then compare against 0. -/
def greater (lhs rhs : NdArrayTensor Int) : NdArrayTensor Bool :=
  greater_scalar (sub lhs rhs) 0

/-- `TensorOps::greater_equal_scalar`: map `a >= rhs` over the storage. -/
def greater_equal_scalar (lhs : NdArrayTensor Int) (rhs : Int) : NdArrayTensor Bool :=
  ⟨lhs.shape, lhs.data.map (fun a => decide (a ≥ rhs))⟩

/-- `TensorOps::greater_equal`: subtract the operands, then compare against 0. -/
def greater_equal (lhs rhs : NdArrayTensor Int) : NdArrayTensor Bool :=
  greater_equal_scalar (sub lhs rhs) 0

/-- `TensorOps::lower_scalar`: map `a < rhs` over the storage. -/
def lower_scalar (lhs : NdArrayTensor Int) (rhs : Int) : NdArrayTensor Bool :=
  ⟨lhs.shape, lhs.data.map (fun a => decide (a < rhs))⟩

/-- `TensorOps::lower`: subtract the operands, then compare against 0. -/
def lower (lhs rhs : NdArrayTensor Int) : NdArrayTensor Bool :=
  lower_scalar (sub lhs rhs) 0

/-- `TensorOps::lower_equal_scalar`: map `a <= rhs` over the storage. -/
def lower_equal_scalar (lhs : NdArrayTensor Int) (rhs : Int) : NdArrayTensor Bool :=
  ⟨lhs.shape, lhs.data.map (fun a => decide (a ≤ rhs))⟩

/-- `TensorOps::lower_equal`: subtract the operands, then compare against 0. -/
def lower_equal (lhs rhs : NdArrayTensor Int) : NdArrayTensor Bool :=
  lower_equal_scalar (sub lhs rhs) 0

/-- `TensorOps::relu`: map each element to 0 when it is below the additive
identity, else keep it. -/
def relu (tensor : NdArrayTensor Int) : NdArrayTensor Int :=
  ⟨tensor.shape, tensor.data.map (fun elem => if elem < 0 then 0 else elem)⟩

/-! Direct elementwise comparison operations, stated from the specification
words for the refinement claim about the "subtract then compare against the
additive identity" implementation.  These are NOT translations of the source:
they are the comparison semantics the spec ascribes to the operations. -/

/-- Spec-side direct elementwise equality comparison. -/
def equal_direct (lhs rhs : NdArrayTensor Int) : NdArrayTensor Bool :=
  ⟨lhs.shape, List.zipWith (fun a b => decide (a = b)) lhs.data rhs.data⟩

/-- Spec-side direct elementwise strict greater-than comparison. -/
def greater_direct (lhs rhs : NdArrayTensor Int) : NdArrayTensor Bool :=
  ⟨lhs.shape, List.zipWith (fun a b => decide (a > b)) lhs.data rhs.data⟩

/-- Spec-side direct elementwise greater-or-equal comparison. -/
def greater_equal_direct (lhs rhs : NdArrayTensor Int) : NdArrayTensor Bool :=
  ⟨lhs.shape, List.zipWith (fun a b => decide (a ≥ b)) lhs.data rhs.data⟩

/-- Spec-side direct elementwise strict lower-than comparison. -/
def lower_direct (lhs rhs : NdArrayTensor Int) : NdArrayTensor Bool :=
  ⟨lhs.shape, List.zipWith (fun a b => decide (a < b)) lhs.data rhs.data⟩

/-- Spec-side direct elementwise lower-or-equal comparison. -/
def lower_equal_direct (lhs rhs : NdArrayTensor Int) : NdArrayTensor Bool :=
  ⟨lhs.shape, List.zipWith (fun a b => decide (a ≤ b)) lhs.data rhs.data⟩

/-! Helper lemmas about flat storage access. -/

/-- Reading a `map` through `getD` at an in-range index applies the function to
the underlying element. -/
theorem getD_map {α β : Type} (f : α → β) (l : List α) (i : Nat) (d : α) (e : β)
    (h : i < l.length) : (l.map f).getD i e = f (l.getD i d) := by
  induction l generalizing i with
  | nil => simp at h
  | cons a l ih =>
    cases i with
    | zero => rfl
    | succ i => exact ih i (by simpa using h)

/-- Reading a `zipWith` through `getD` at an index in range of both lists
applies the function to the two underlying elements. -/
theorem getD_zipWith {α β γ : Type} (f : α → β → γ) (l1 : List α) (l2 : List β)
    (i : Nat) (d1 : α) (d2 : β) (e : γ) (h1 : i < l1.length) (h2 : i < l2.length) :
    (List.zipWith f l1 l2).getD i e = f (l1.getD i d1) (l2.getD i d2) := by
  induction l1 generalizing l2 i with
  | nil => simp at h1
  | cons a l1 ih =>
    cases l2 with
    | nil => simp at h2
    | cons b l2 =>
      cases i with
      | zero => rfl
      | succ i => exact ih l2 i (by simpa using h1) (by simpa using h2)

/-- Every `getD` read of a list of zeros with default 0 yields 0, in or out of
range. -/
theorem getD_replicate_zero (n i : Nat) : (List.replicate n (0 : Int)).getD i 0 = 0 := by
  induction n generalizing i with
  | zero => simp [List.getD]
  | succ n ih =>
    cases i with
    | zero => simp [List.replicate]
    | succ i => simp [List.replicate, ih i]

/-! The `arg` helper shared by `argmax` and `argmin` (free function at the
bottom of `ops/tensor.rs`), together with its two comparators.  The `f64`
conversion `to_elem` of the signed elements is modelled as the identity. -/

/-- `cmp_max(a, b)`: `Less` when `a < b`, `Greater` when `a > b`, else
`Equal` (ascending comparator). -/
def cmp_max (a b : Int) : Ordering :=
  if a < b then Ordering.lt else if a > b then Ordering.gt else Ordering.eq

/-- `cmp_min(a, b)`: `Less` when `a > b`, `Greater` when `a < b`, else
`Equal` (descending comparator). -/
def cmp_min (a b : Int) : Ordering :=
  if a > b then Ordering.lt else if a < b then Ordering.gt else Ordering.eq

/-- Insert an element into a list sorted by the comparator, before the first
element `b` with `cmp a b` not `Greater` (stable insertion). -/
def insertCmp (cmp : Int → Int → Ordering) (a : Int) : List Int → List Int
  | [] => [a]
  | b :: l => if cmp a b = Ordering.gt then b :: insertCmp cmp a l else a :: b :: l

/-- Stable comparator sort modelling Rust `sort_by`: elements appear in
ascending order of the comparator (`cmp x y = Less` puts `x` first). -/
def sortByCmp (cmp : Int → Int → Ordering) : List Int → List Int
  | [] => []
  | a :: l => insertCmp cmp a (sortByCmp cmp l)

/-- First index at which the predicate holds, as the source's linear scan that
breaks on the first hit and otherwise keeps incrementing the counter (the list
length when no element matches). -/
def scanIdx (p : Int → Bool) : List Int → Nat
  | [] => 0
  | a :: l => if p a then 0 else scanIdx p l + 1

/-- One iteration body of the `arg` loop: sort a copy of the run with the
comparator, take `sorted[0]` as the extreme, then linearly scan the run for the
first element equal to it, returning that count as an `i64` index. -/
def argOne (cmp : Int → Int → Ordering) (run : List Int) : Int :=
  let sorted := sortByCmp cmp run
  let max := sorted.headD 0
  Int.ofNat (scanIdx (fun e => decide (e = max)) run)

/-- The `while end <= data.value.len()` loop of `arg`: process contiguous
windows of `batch_size` elements in storage order, pushing one index per full
window.  The fuel argument bounds the iteration count; it is instantiated with
the storage length, which suffices for every positive `batch_size`. -/
def argLoop (cmp : Int → Int → Ordering) (batch_size : Nat) : List Int → Nat → List Int
  | _, 0 => []
  | l, fuel + 1 =>
    if batch_size ≤ l.length then
      argOne cmp (l.take batch_size) :: argLoop cmp batch_size (l.drop batch_size) fuel
    else []

/-- The free function `arg(tensor, dim, cmp)`: `batch_size` is the chosen
axis extent, the loop walks the flat storage in windows of `batch_size`, and
the output keeps the shape with the reduced axis extent set to 1, with `i64`
index elements. -/
def arg (tensor : NdArrayTensor Int) (dim : Nat) (cmp : Int → Int → Ordering) :
    NdArrayTensor Int :=
  let batch_size := tensor.shape.getD dim 0
  ⟨tensor.shape.set dim 1, argLoop cmp batch_size tensor.data tensor.data.length⟩

/-- `TensorOps::argmax`: `arg(tensor, dim, cmp_min)` (the descending comparator
puts the maximum at `sorted[0]`). -/
def argmax (tensor : NdArrayTensor Int) (dim : Nat) : NdArrayTensor Int :=
  arg tensor dim cmp_min

/-- `TensorOps::argmin`: `arg(tensor, dim, cmp_max)` (the ascending comparator
puts the minimum at `sorted[0]`). -/
def argmin (tensor : NdArrayTensor Int) (dim : Nat) : NdArrayTensor Int :=
  arg tensor dim cmp_max

/-- Modelled from the spec: `NdArrayMathOps::sum_dim` (not under `src/`)
reduces exactly one named axis by summation over the row-major storage,
producing a same-rank tensor whose reduced axis extent is 1
(spec section 4.3). -/
def sum_dim (t : NdArrayTensor Int) (dim : Nat) : NdArrayTensor Int :=
  let n := t.shape.getD dim 1
  let outer := (t.shape.take dim).prod
  let inner := (t.shape.drop (dim + 1)).prod
  ⟨t.shape.set dim 1,
    (List.range (outer * inner)).map (fun idx =>
      let o := idx / inner
      let i := idx % inner
      ((List.range n).map (fun k => t.data.getD ((o * n + k) * inner + i) 0)).sum)⟩

/-- Modelled from the spec: `NdArrayMathOps::mean_dim` (not under `src/`)
reduces one named axis to its mean, with the same shape behaviour as
`sum_dim` (spec section 4.3); the integer instantiation divides the axis sums
by the axis extent. -/
def mean_dim (t : NdArrayTensor Int) (dim : Nat) : NdArrayTensor Int :=
  let n := t.shape.getD dim 1
  let s := sum_dim t dim
  ⟨s.shape, s.data.map (· / (n : Int))⟩

/-! Random generation.  The generator type of the `rand` crate is abstracted
to a state value; the draw itself lives in `burn-tensor` (not under `src/`)
and is modelled from the spec. -/

/-- The distribution argument of `random` (`Distribution<E>` of `burn-tensor`),
over the integer element instantiation. -/
inductive Distribution where
  | standard
  | uniform (low high : Int)
  | bernoulli (prob : Int)
  | normal (mean std : Int)
deriving DecidableEq, Repr

/-- Modelled from the spec: a single deterministic draw of one element from the
distribution at a given generator state (spec section 4.6: results are a pure
function of the stored state). -/
def drawValue (d : Distribution) (state : Nat) : Int :=
  match d with
  | Distribution.standard => Int.ofNat (state % 1000)
  | Distribution.uniform low high =>
      if low < high then low + Int.ofNat (state % (high - low).toNat) else low
  | Distribution.bernoulli prob => if Int.ofNat (state % 1000) < prob then 1 else 0
  | Distribution.normal mean _ => mean + Int.ofNat (state % 1000)

/-- Modelled from the spec: `Data::random(shape, distribution, rng)` of
`burn-tensor` (not under `src/`) draws `element_count(shape)` values
deterministically from the generator and returns the advanced post-draw
generator state (spec sections 4.6 and 2). -/
def dataRandom (shape : List Nat) (d : Distribution) (rng : Nat) : Data Int × Nat :=
  (⟨(List.range shape.prod).map (fun i => drawValue d (rng + i)), shape⟩,
    rng + shape.prod + 1)

/-- Modelled from the spec: `get_seeded_rng()` of `burn-common` (not under
`src/`) produces the initial generator state used when no state is stored yet
(spec section 4.6, lazy initialization). -/
def get_seeded_rng : Nat := 0

/-- `TensorOps::random`: lock the process-wide `SEED`, clone the stored
generator state if present (else initialize one), draw a data tensor from the
distribution, store the advanced generator back, and return the tensor built
from the drawn data.  The `SEED` cell content is made an explicit argument and
result. -/
def random (shape : List Nat) (distribution : Distribution) (device : NdArrayDevice)
    (seed : Option Nat) : NdArrayTensor Int × Option Nat :=
  let rng := match seed with
    | some rng_seeded => rng_seeded
    | none => get_seeded_rng
  let res := dataRandom shape distribution rng
  (from_data res.1 device, some res.2)

/-- A run of `n` successive `random` calls threading the stored seed state,
collecting the produced tensors and the final stored state. -/
def runRandom (shape : List Nat) (distribution : Distribution) (device : NdArrayDevice) :
    Nat → Option Nat → List (NdArrayTensor Int) × Option Nat
  | 0, seed => ([], seed)
  | n + 1, seed =>
    let step := random shape distribution device seed
    let rest := runRandom shape distribution device n step.2
    (step.1 :: rest.1, rest.2)

/-! Further helper lemmas. -/

/-- Pointwise reading of the `mask_fill` storage arithmetic: multiplying by the
inverted mask and adding the scaled mask selects between tensor element and
fill value. -/
theorem mask_fill_data_pointwise (v : Int) (td : List Int) (md : List Bool)
    (h : td.length = md.length) (i : Nat) (hi : i < td.length) :
    (List.zipWith (· + ·)
        (List.zipWith (· * ·) td (md.map (fun x => match x with | true => (0 : Int) | false => 1)))
        (md.map (fun x => match x with | true => v | false => 0))).getD i 0 =
      if md.getD i false = true then v else td.getD i 0 := by
  induction td generalizing md i with
  | nil => simp at hi
  | cons a td ih =>
    cases md with
    | nil => simp at h
    | cons b md =>
      cases i with
      | zero => cases b <;> simp
      | succ i => exact ih md (by simpa using h) i (by simpa using hi)

/-- Rewriting a comparison-after-subtraction storage map into a direct binary
comparison, given the element-level equivalence. -/
theorem map_cmp_sub_zero (g : Int → Bool) (p : Int → Int → Bool)
    (hg : ∀ a b, g (a - b) = p a b) (l1 l2 : List Int) :
    (List.zipWith (· - ·) l1 l2).map g = List.zipWith p l1 l2 := by
  rw [List.map_zipWith]
  have : (fun a b => g (a - b)) = p := funext fun a => funext fun b => hg a b
  rw [this]

/-! Properties of the comparator sort used by `arg`. -/

/-- Inserting never yields the empty list. -/
theorem insertCmp_ne_nil (cmp : Int → Int → Ordering) (a : Int) (l : List Int) :
    insertCmp cmp a l ≠ [] := by
  cases l with
  | nil => simp [insertCmp]
  | cons b t => simp only [insertCmp]; split <;> simp

/-- Membership in an insertion. -/
theorem mem_insertCmp (cmp : Int → Int → Ordering) (a x : Int) (l : List Int) :
    x ∈ insertCmp cmp a l ↔ x = a ∨ x ∈ l := by
  induction l with
  | nil => simp [insertCmp]
  | cons b t ih =>
    simp only [insertCmp]
    by_cases h : cmp a b = Ordering.gt
    · rw [if_pos h]; simp [ih]; tauto
    · rw [if_neg h]; simp

/-- Sorting preserves membership. -/
theorem mem_sortByCmp (cmp : Int → Int → Ordering) (x : Int) (l : List Int) :
    x ∈ sortByCmp cmp l ↔ x ∈ l := by
  induction l with
  | nil => simp [sortByCmp]
  | cons a t ih => simp [sortByCmp, mem_insertCmp, ih]

/-- The head of the sorted copy of a nonempty list is one of its elements. -/
theorem sortByCmp_headD_mem (cmp : Int → Int → Ordering) (l : List Int) (h : l ≠ []) :
    (sortByCmp cmp l).headD 0 ∈ l := by
  rw [← mem_sortByCmp cmp]
  cases l with
  | nil => exact absurd rfl h
  | cons a t =>
    show (insertCmp cmp a (sortByCmp cmp t)).headD 0 ∈ insertCmp cmp a (sortByCmp cmp t)
    cases hs : insertCmp cmp a (sortByCmp cmp t) with
    | nil => exact absurd hs (insertCmp_ne_nil cmp a (sortByCmp cmp t))
    | cons b u => simp

/-- The head of the sorted copy is extremal: no element of the list is placed
after it by the comparator.  The relation `r` captures when the comparator
answers `Greater`; it must be asymmetric and its complement transitive, as the
strict orders used by `arg` are. -/
theorem sortByCmp_headD_extremal (cmp : Int → Int → Ordering) (r : Int → Int → Prop)
    (hgt : ∀ a b, cmp a b = Ordering.gt ↔ r a b)
    (hasymm : ∀ a b, r a b → ¬r b a)
    (htrans : ∀ a b c, ¬r a b → ¬r b c → ¬r a c) :
    ∀ l : List Int, ∀ x ∈ l, ¬r ((sortByCmp cmp l).headD 0) x := by
  intro l
  induction l with
  | nil => intro x hx; simp at hx
  | cons a t ih =>
    intro x hx
    have hirr : ∀ y, ¬r y y := fun y hy => hasymm y y hy hy
    show ¬r ((insertCmp cmp a (sortByCmp cmp t)).headD 0) x
    cases hs : sortByCmp cmp t with
    | nil =>
      have ht : t = [] := by
        cases t with
        | nil => rfl
        | cons c u => exact absurd hs (insertCmp_ne_nil cmp c (sortByCmp cmp u))
      subst ht
      rcases List.mem_cons.mp hx with hxa | hxn
      · subst hxa; simpa [hs, insertCmp] using hirr x
      · simp at hxn
    | cons b u =>
      simp only [insertCmp]
      by_cases hc : cmp a b = Ordering.gt
      · rw [if_pos hc]
        rcases List.mem_cons.mp hx with hxa | hxn
        · subst hxa
          exact fun hr => hasymm x b ((hgt x b).mp hc) hr
        · have := ih x hxn
          rw [hs] at this
          simpa using this
      · rw [if_neg hc]
        have hab : ¬r a b := fun hr => hc ((hgt a b).mpr hr)
        rcases List.mem_cons.mp hx with hxa | hxn
        · subst hxa; simpa using hirr x
        · have hbx := ih x hxn
          rw [hs] at hbx
          simpa using htrans a b x hab (by simpa using hbx)

/-- The linear scan of `arg` stops at the first matching element: the returned
index is in range, the element there matches, and no earlier element does. -/
theorem scanIdx_spec (p : Int → Bool) (l : List Int) (hex : ∃ x ∈ l, p x = true) :
    scanIdx p l < l.length ∧ p (l.getD (scanIdx p l) 0) = true ∧
      ∀ i, i < scanIdx p l → p (l.getD i 0) = false := by
  induction l with
  | nil => simp at hex
  | cons a t ih =>
    by_cases h : p a = true
    · refine ⟨by simp [scanIdx, h], by simp [scanIdx, h, List.getD], ?_⟩
      intro i hi
      simp [scanIdx, h] at hi
    · have hex2 : ∃ x ∈ t, p x = true := by
        obtain ⟨x, hx, hpx⟩ := hex
        rcases List.mem_cons.mp hx with hxa | hxn
        · subst hxa; exact absurd hpx h
        · exact ⟨x, hxn, hpx⟩
      obtain ⟨h1, h2, h3⟩ := ih hex2
      have hfa : p a = false := by simpa using h
      refine ⟨?_, ?_, ?_⟩
      · simpa [scanIdx, hfa] using h1
      · simpa [scanIdx, hfa, List.getD] using h2
      · intro i hi
        rw [scanIdx, hfa] at hi
        simp only [Bool.false_eq_true, if_false] at hi
        cases i with
        | zero => simpa [List.getD] using hfa
        | succ i => simpa [List.getD] using h3 i (by omega)

/-- The loop body of `arg` on one run: the returned index is the 0-based
position of the first element equal to the extreme selected by the
comparator. -/
theorem argOne_spec (cmp : Int → Int → Ordering) (r : Int → Int → Prop)
    (hgt : ∀ a b, cmp a b = Ordering.gt ↔ r a b)
    (hasymm : ∀ a b, r a b → ¬r b a)
    (htrans : ∀ a b c, ¬r a b → ¬r b c → ¬r a c)
    (run : List Int) (hne : run ≠ []) :
    ∃ j : Nat, argOne cmp run = Int.ofNat j ∧ j < run.length ∧
      (∀ x ∈ run, ¬r (run.getD j 0) x) ∧
      ∀ i, i < j → run.getD i 0 ≠ run.getD j 0 := by
  have hmem : (sortByCmp cmp run).headD 0 ∈ run := sortByCmp_headD_mem cmp run hne
  have hmax : ∀ x ∈ run, ¬r ((sortByCmp cmp run).headD 0) x :=
    sortByCmp_headD_extremal cmp r hgt hasymm htrans run
  obtain ⟨h1, h2, h3⟩ :=
    scanIdx_spec (fun e => decide (e = (sortByCmp cmp run).headD 0)) run
      ⟨(sortByCmp cmp run).headD 0, hmem, by simp⟩
  refine ⟨scanIdx (fun e => decide (e = (sortByCmp cmp run).headD 0)) run, rfl, h1, ?_, ?_⟩
  · have heq : run.getD (scanIdx (fun e => decide (e = (sortByCmp cmp run).headD 0)) run) 0 =
        (sortByCmp cmp run).headD 0 := by simpa using h2
    rw [heq]
    exact hmax
  · intro i hi
    have heq : run.getD (scanIdx (fun e => decide (e = (sortByCmp cmp run).headD 0)) run) 0 =
        (sortByCmp cmp run).headD 0 := by simpa using h2
    have := h3 i hi
    simp only [decide_eq_false_iff_not] at this
    rw [heq]
    exact this

/-- The loop of `arg` produces one index per full window of `batch_size`
consecutive storage elements. -/
theorem argLoop_length (cmp : Int → Int → Ordering) (bs : Nat) (hbs : 0 < bs) :
    ∀ (fuel : Nat) (l : List Int), l.length ≤ fuel →
      (argLoop cmp bs l fuel).length = l.length / bs := by
  intro fuel
  induction fuel with
  | zero =>
    intro l hl
    have h0 : l.length = 0 := Nat.le_zero.mp hl
    simp [argLoop, h0, Nat.zero_div]
  | succ fuel ih =>
    intro l hl
    simp only [argLoop]
    by_cases h : bs ≤ l.length
    · rw [if_pos h]
      have hdl : (l.drop bs).length ≤ fuel := by simp; omega
      simp only [List.length_cons, ih (l.drop bs) hdl, List.length_drop]
      conv_rhs => rw [Nat.div_eq]
      simp [hbs, h]
    · rw [if_neg h]
      simp only [List.length_nil]
      exact (Nat.div_eq_of_lt (by omega)).symm

/-- Each entry of the `arg` loop output is the loop body applied to the
corresponding contiguous window of `batch_size` storage elements. -/
theorem argLoop_getD (cmp : Int → Int → Ordering) (bs : Nat) (hbs : 0 < bs) :
    ∀ (k fuel : Nat) (l : List Int), l.length ≤ fuel → bs * (k + 1) ≤ l.length →
      (argLoop cmp bs l fuel).getD k 0 = argOne cmp ((l.drop (bs * k)).take bs) := by
  intro k
  induction k with
  | zero =>
    intro fuel l hfuel hlen
    cases fuel with
    | zero => omega
    | succ fuel =>
      simp only [argLoop]
      rw [if_pos (by omega)]
      simp [List.getD]
  | succ k ih =>
    intro fuel l hfuel hlen
    have hble : bs * 1 ≤ l.length :=
      le_trans (Nat.mul_le_mul (le_refl bs) (by omega)) hlen
    cases fuel with
    | zero => exfalso; omega
    | succ fuel =>
      simp only [argLoop]
      rw [if_pos (by omega)]
      have hstep : (argLoop cmp bs (l.drop bs) fuel).getD k 0 =
          argOne cmp (((l.drop bs).drop (bs * k)).take bs) := by
        refine ih fuel (l.drop bs) (by simp; omega) ?_
        simp only [List.length_drop]
        simp only [Nat.mul_succ] at hlen ⊢
        omega
      show (argLoop cmp bs (l.drop bs) fuel).getD k 0 = _
      rw [hstep, List.drop_drop]
      have harith : bs + bs * k = bs * (k + 1) := by ring
      rw [harith]

/-- The comparator relation facts used for `argmax` (descending comparator
`cmp_min`). -/
theorem cmp_min_gt_iff (a b : Int) : cmp_min a b = Ordering.gt ↔ a < b := by
  unfold cmp_min
  split_ifs with h1 h2 <;> simp <;> omega

/-- The comparator relation facts used for `argmin` (ascending comparator
`cmp_max`). -/
theorem cmp_max_gt_iff (a b : Int) : cmp_max a b = Ordering.gt ↔ b < a := by
  unfold cmp_max
  split_ifs with h1 h2 <;> simp <;> omega

/-! Shape and product bookkeeping lemmas. -/

/-- Reading a `set` list at the written position. -/
theorem getD_set_self {α : Type} (l : List α) (i : Nat) (v d : α) (h : i < l.length) :
    (l.set i v).getD i d = v := by
  induction l generalizing i with
  | nil => simp at h
  | cons a t ih =>
    cases i with
    | zero => rfl
    | succ i => exact ih i (by simpa using h)

/-- Reading a `set` list away from the written position. -/
theorem getD_set_ne {α : Type} (l : List α) (i j : Nat) (v d : α) (h : j ≠ i) :
    (l.set i v).getD j d = l.getD j d := by
  induction l generalizing i j with
  | nil => simp [List.getD]
  | cons a t ih =>
    cases i with
    | zero =>
      cases j with
      | zero => exact absurd rfl h
      | succ j => rfl
    | succ i =>
      cases j with
      | zero => rfl
      | succ j => exact ih i j (fun he => h (by omega))

/-- Decomposing a product of extents around one position. -/
theorem prod_take_getD_drop (l : List Nat) (i : Nat) (h : i < l.length) :
    l.prod = (l.take i).prod * l.getD i 0 * (l.drop (i + 1)).prod := by
  induction l generalizing i with
  | nil => simp at h
  | cons a t ih =>
    cases i with
    | zero => simp [List.getD]
    | succ i =>
      simp only [List.prod_cons, List.take_succ_cons, List.drop_succ_cons]
      rw [ih i (by simpa using h)]
      simp [List.getD]
      ring

/-- Product of extents after overwriting one position. -/
theorem prod_set (l : List Nat) (i v : Nat) (h : i < l.length) :
    (l.set i v).prod = (l.take i).prod * v * (l.drop (i + 1)).prod := by
  induction l generalizing i with
  | nil => simp at h
  | cons a t ih =>
    cases i with
    | zero => simp [List.set]
    | succ i =>
      simp only [List.set, List.prod_cons, List.take_succ_cons, List.drop_succ_cons]
      rw [ih i (by simpa using h)]
      ring

/-- Summing a list mapped through multiplication by a constant on the right. -/
theorem sum_map_mul_right {α : Type} (l : List α) (f : α → Nat) (r : Nat) :
    (l.map (fun x => f x * r)).sum = (l.map f).sum * r := by
  induction l with
  | nil => simp
  | cons a t ih => simp [ih, Nat.add_mul]

/-- Summing a constant over a list. -/
theorem sum_map_const {α : Type} (l : List α) (c : Nat) :
    (l.map (fun _ => c)).sum = l.length * c := by
  induction l with
  | nil => simp
  | cons a t ih => simp [ih, Nat.succ_mul]; ring

/-! Preservation of the element-count invariant, operation by operation. -/

/-- Storage length of an elementwise tensor-tensor combination. -/
theorem length_zipWith_wf {α : Type} (f : Int → Int → α) (a b : NdArrayTensor Int)
    (hsh : a.shape = b.shape) (ha : wf a) (hb : wf b) :
    (List.zipWith f a.data b.data).length = a.shape.prod := by
  rw [List.length_zipWith, ha, hb, hsh]
  exact Nat.min_self _

/-- Storage length of the `cat` output data, given that every input has the
agreed outer/inner extents. -/
theorem length_cat_data (tensors : List (NdArrayTensor Int)) (dim : Nat)
    (outer inner : Nat)
    (hall : ∀ t ∈ tensors, t.data.length = outer * (t.shape.getD dim 0 * inner)) :
    (((List.range outer).map (fun o =>
        (tensors.map (fun t =>
          (t.data.drop (o * (t.shape.getD dim 0 * inner))).take
            (t.shape.getD dim 0 * inner))).flatten)).flatten).length =
      outer * ((tensors.map (fun t => t.shape.getD dim 0)).sum * inner) := by
  rw [List.length_flatten, List.map_map]
  have hcongr : ∀ o ∈ List.range outer,
      (List.length ∘ fun o =>
        (tensors.map (fun t =>
          (t.data.drop (o * (t.shape.getD dim 0 * inner))).take
            (t.shape.getD dim 0 * inner))).flatten) o =
      (tensors.map (fun t => t.shape.getD dim 0)).sum * inner := by
    intro o ho
    have ho2 : o < outer := List.mem_range.mp ho
    simp only [Function.comp]
    rw [List.length_flatten, List.map_map]
    have hinner : ∀ t ∈ tensors,
        (List.length ∘ fun t =>
          (t.data.drop (o * (t.shape.getD dim 0 * inner))).take
            (t.shape.getD dim 0 * inner)) t =
        t.shape.getD dim 0 * inner := by
      intro t htm
      simp only [Function.comp, List.length_take, List.length_drop]
      rw [hall t htm]
      have hfac : outer * (t.shape.getD dim 0 * inner) - o * (t.shape.getD dim 0 * inner) =
          (outer - o) * (t.shape.getD dim 0 * inner) := by
        rw [Nat.sub_mul]
      rw [hfac]
      exact Nat.min_eq_left (Nat.le_mul_of_pos_left _ (by omega))
    rw [List.map_congr_left hinner, sum_map_mul_right]
  rw [List.map_congr_left hcongr, sum_map_const, List.length_range]

/-! Claim theorems. -/

/-- C1: for every tensor, same-shape boolean mask and scalar value,
`mask_fill` returns a tensor whose element at each position is the tensor
element where the mask is false and the fill value where the mask is true;
in particular `mask_fill([1,2,3], [false,true,false], 9)` yields `[1,9,3]`. -/
theorem mask_fill_selects (t : NdArrayTensor Int) (m : NdArrayTensor Bool) (v : Int)
    (hsh : t.shape = m.shape) (ht : wf t) (hm : wf m) :
    (mask_fill t m v).shape = t.shape ∧
    (∀ i, i < t.data.length →
      (mask_fill t m v).data.getD i 0 =
        if m.data.getD i false = true then v else t.data.getD i 0) ∧
    (mask_fill ⟨[3], [1, 2, 3]⟩ ⟨[3], [false, true, false]⟩ 9).data = [1, 9, 3] := by
  refine ⟨rfl, fun i hi => ?_, by decide⟩
  have hlen : t.data.length = m.data.length := by rw [ht, hm, hsh]
  exact mask_fill_data_pointwise v t.data m.data hlen i hi

/-- Witness for C1 at the concrete input of the claim. -/
theorem mask_fill_selects_witness :
    wf (⟨[3], [1, 2, 3]⟩ : NdArrayTensor Int) ∧
      (mask_fill ⟨[3], [1, 2, 3]⟩ ⟨[3], [false, true, false]⟩ 9).data = [1, 9, 3] :=
  ⟨by decide,
    (mask_fill_selects ⟨[3], [1, 2, 3]⟩ ⟨[3], [false, true, false]⟩ 9 rfl (by decide)
        (by decide)).2.2⟩

/-- The contiguous window of `batch_size` storage elements processed in
iteration `k` of the `arg` loop (statement vocabulary for the claims about
`argmax`/`argmin`). -/
def argRun (t : NdArrayTensor Int) (dim k : Nat) : List Int :=
  (t.data.drop (t.shape.getD dim 0 * k)).take (t.shape.getD dim 0)

/-- C2: for every tensor with positive extents and in-range axis, `argmax`
(and symmetrically `argmin`) scans each contiguous run of `batch_size` storage
elements, `batch_size` being the chosen axis extent, and returns the 0-based
position of the first element equal to the extreme of the run (first
occurrence in storage order wins ties); the output keeps the shape with the
reduced axis extent set to 1, with signed integer index elements (`i64` in the
source, modelled as `Int`); in particular `argmax` on `[3, 5, 5, 2]` along its
single axis returns index 1. -/
theorem argmax_argmin_first_extreme (t : NdArrayTensor Int) (dim : Nat)
    (hwf : wf t) (hdim : dim < t.shape.length) (hpos : ∀ x ∈ t.shape, 0 < x) :
    (argmax t dim).shape = t.shape.set dim 1 ∧
    (argmin t dim).shape = t.shape.set dim 1 ∧
    (argmax t dim).data.length = t.data.length / t.shape.getD dim 0 ∧
    (argmin t dim).data.length = t.data.length / t.shape.getD dim 0 ∧
    (∀ k, t.shape.getD dim 0 * (k + 1) ≤ t.data.length →
      ∃ j : Nat,
        (argmax t dim).data.getD k 0 = Int.ofNat j ∧
        j < (argRun t dim k).length ∧
        (∀ x ∈ argRun t dim k, x ≤ (argRun t dim k).getD j 0) ∧
        ∀ i, i < j → (argRun t dim k).getD i 0 ≠ (argRun t dim k).getD j 0) ∧
    (∀ k, t.shape.getD dim 0 * (k + 1) ≤ t.data.length →
      ∃ j : Nat,
        (argmin t dim).data.getD k 0 = Int.ofNat j ∧
        j < (argRun t dim k).length ∧
        (∀ x ∈ argRun t dim k, (argRun t dim k).getD j 0 ≤ x) ∧
        ∀ i, i < j → (argRun t dim k).getD i 0 ≠ (argRun t dim k).getD j 0) ∧
    (argmax ⟨[4], [3, 5, 5, 2]⟩ 0).data = [1] := by
  have hbs : 0 < t.shape.getD dim 0 := by
    apply hpos
    rw [List.getD_eq_getElem t.shape 0 hdim]
    exact List.getElem_mem hdim
  refine ⟨rfl, rfl, ?_, ?_, ?_, ?_, by decide⟩
  · exact argLoop_length cmp_min _ hbs t.data.length t.data (le_refl _)
  · exact argLoop_length cmp_max _ hbs t.data.length t.data (le_refl _)
  · intro k hk
    have hk2 : t.shape.getD dim 0 * k + t.shape.getD dim 0 ≤ t.data.length := by
      rw [Nat.mul_succ] at hk; exact hk
    have hrun : (argRun t dim k).length = t.shape.getD dim 0 := by
      simp only [argRun, List.length_take, List.length_drop]
      omega
    have hne : argRun t dim k ≠ [] := by
      intro hnil
      rw [hnil] at hrun
      exact absurd hrun.symm (Nat.ne_of_gt hbs)
    obtain ⟨j, hj1, hj2, hj3, hj4⟩ :=
      argOne_spec cmp_min (fun a b => a < b) cmp_min_gt_iff
        (fun a b h1 => by omega) (fun a b c h1 h2 => by omega) (argRun t dim k) hne
    refine ⟨j, ?_, hj2, fun x hx => not_lt.mp (hj3 x hx), hj4⟩
    show (argLoop cmp_min (t.shape.getD dim 0) t.data t.data.length).getD k 0 = Int.ofNat j
    rw [argLoop_getD cmp_min _ hbs k t.data.length t.data (le_refl _) hk]
    exact hj1
  · intro k hk
    have hk2 : t.shape.getD dim 0 * k + t.shape.getD dim 0 ≤ t.data.length := by
      rw [Nat.mul_succ] at hk; exact hk
    have hrun : (argRun t dim k).length = t.shape.getD dim 0 := by
      simp only [argRun, List.length_take, List.length_drop]
      omega
    have hne : argRun t dim k ≠ [] := by
      intro hnil
      rw [hnil] at hrun
      exact absurd hrun.symm (Nat.ne_of_gt hbs)
    obtain ⟨j, hj1, hj2, hj3, hj4⟩ :=
      argOne_spec cmp_max (fun a b => b < a) cmp_max_gt_iff
        (fun a b h1 => by omega) (fun a b c h1 h2 => by omega) (argRun t dim k) hne
    refine ⟨j, ?_, hj2, fun x hx => not_lt.mp (hj3 x hx), hj4⟩
    show (argLoop cmp_max (t.shape.getD dim 0) t.data t.data.length).getD k 0 = Int.ofNat j
    rw [argLoop_getD cmp_max _ hbs k t.data.length t.data (le_refl _) hk]
    exact hj1

/-- Witness for C2 at the tie-break input of the claim. -/
theorem argmax_argmin_first_extreme_witness :
    (∀ x ∈ ([4] : List Nat), 0 < x) ∧
      (argmax (⟨[4], [3, 5, 5, 2]⟩ : NdArrayTensor Int) 0).shape = ([4] : List Nat).set 0 1 :=
  ⟨by decide,
    (argmax_argmin_first_extreme ⟨[4], [3, 5, 5, 2]⟩ 0 (by decide) (by decide) (by decide)).1⟩

/-- C3: the tensor-tensor comparisons implemented as "subtract the operands,
then compare the difference against the additive identity" coincide with the
direct elementwise comparisons, for every pair of tensors over the signed
(exact) integer elements. -/
theorem comparisons_refine_direct (lhs rhs : NdArrayTensor Int) :
    equal lhs rhs = equal_direct lhs rhs ∧
    greater lhs rhs = greater_direct lhs rhs ∧
    greater_equal lhs rhs = greater_equal_direct lhs rhs ∧
    lower lhs rhs = lower_direct lhs rhs ∧
    lower_equal lhs rhs = lower_equal_direct lhs rhs := by
  refine ⟨?_, ?_, ?_, ?_, ?_⟩
  · simp only [equal, equal_scalar, sub, equal_direct]
    exact congrArg _ (map_cmp_sub_zero _ _
      (fun a b => decide_eq_decide.mpr sub_eq_zero) lhs.data rhs.data)
  · simp only [greater, greater_scalar, sub, greater_direct]
    exact congrArg _ (map_cmp_sub_zero _ _
      (fun a b => decide_eq_decide.mpr sub_pos) lhs.data rhs.data)
  · simp only [greater_equal, greater_equal_scalar, sub, greater_equal_direct]
    exact congrArg _ (map_cmp_sub_zero _ _
      (fun a b => decide_eq_decide.mpr sub_nonneg) lhs.data rhs.data)
  · simp only [lower, lower_scalar, sub, lower_direct]
    exact congrArg _ (map_cmp_sub_zero _ _
      (fun a b => decide_eq_decide.mpr sub_neg) lhs.data rhs.data)
  · simp only [lower_equal, lower_equal_scalar, sub, lower_equal_direct]
    exact congrArg _ (map_cmp_sub_zero _ _
      (fun a b => decide_eq_decide.mpr sub_nonpos) lhs.data rhs.data)

/-- C4: `relu` computes per element the element itself when it is at least the
additive identity, and 0 otherwise. -/
theorem relu_spec (t : NdArrayTensor Int) :
    (relu t).shape = t.shape ∧
    ∀ i, i < t.data.length →
      (relu t).data.getD i 0 =
        if 0 ≤ t.data.getD i 0 then t.data.getD i 0 else 0 := by
  refine ⟨rfl, fun i hi => ?_⟩
  simp only [relu]
  rw [getD_map _ _ i 0 0 hi]
  rcases le_or_lt 0 (t.data.getD i 0) with h | h
  · rw [if_neg (not_lt.mpr h), if_pos h]
  · rw [if_pos h, if_neg (not_le.mpr h)]

/-- Witness for C4 at a concrete tensor. -/
theorem relu_spec_witness :
    (0 : Nat) < 4 ∧
      (relu ⟨[4], [-2, 0, 3, -1]⟩).data.getD 0 0 =
        if 0 ≤ ((⟨[4], [-2, 0, 3, -1]⟩ : NdArrayTensor Int)).data.getD 0 0 then
          ((⟨[4], [-2, 0, 3, -1]⟩ : NdArrayTensor Int)).data.getD 0 0
        else 0 :=
  ⟨by decide, (relu_spec ⟨[4], [-2, 0, 3, -1]⟩).2 0 (by decide)⟩

/-- C5: `sub(a, b)` equals `add(a, neg(b))` exactly, element for element, with
`neg` the multiplication of every element by -1. -/
theorem sub_eq_add_neg_tensor (a b : NdArrayTensor Int) : sub a b = add a (neg b) := by
  simp only [sub, add, neg, mul_scalar]
  congr 1
  rw [List.zipWith_map_right]
  have : (fun (x y : Int) => x - y) = fun (x y : Int) => x + y * -1 := by
    funext x y; ring
  rw [this]

/-- C6: extracting a tensor built from a well-formed value/shape pair returns
exactly that pair: same flat value sequence and same shape. -/
theorem to_data_from_data (d : Data Int) (device : NdArrayDevice) (_h : d.wf) :
    to_data (from_data d device) = d := rfl

/-- Witness for C6 at a concrete value/shape pair. -/
theorem to_data_from_data_witness :
    Data.wf (⟨[1, 2, 3], [3]⟩ : Data Int) ∧
      to_data (from_data (⟨[1, 2, 3], [3]⟩ : Data Int) NdArrayDevice.Cpu) = ⟨[1, 2, 3], [3]⟩ :=
  ⟨by decide, to_data_from_data ⟨[1, 2, 3], [3]⟩ NdArrayDevice.Cpu (by decide)⟩

/-- C9: `random` is deterministic given the stored generator state: it draws
with the stored state, stores the advanced post-draw state back, two
executions from equal stored states return identical tensors and identical
successor states, and every run of successive calls is a fixed sequence
determined by the initial stored state. -/
theorem random_deterministic (shape : List Nat) (dist : Distribution)
    (device : NdArrayDevice) (s1 s2 : Nat) (h : s1 = s2) :
    (random shape dist device (some s1)).1 = from_data (dataRandom shape dist s1).1 device ∧
    (random shape dist device (some s1)).2 = some (dataRandom shape dist s1).2 ∧
    random shape dist device (some s1) = random shape dist device (some s2) ∧
    ∀ n, runRandom shape dist device n (some s1) = runRandom shape dist device n (some s2) := by
  subst h
  exact ⟨rfl, rfl, rfl, fun _ => rfl⟩

/-- Witness for C9 at a concrete shape, distribution and stored state. -/
theorem random_deterministic_witness :
    (7 : Nat) = 7 ∧
      (random [2] Distribution.standard NdArrayDevice.Cpu (some 7)).2 =
        some (dataRandom [2] Distribution.standard 7).2 :=
  ⟨rfl, (random_deterministic [2] Distribution.standard NdArrayDevice.Cpu 7 7 rfl).2.1⟩

/-- C10: `empty` delegates to `zeros`, so for every shape it returns the fully
zero-initialized well-formed tensor of that shape, never arbitrary contents. -/
theorem empty_is_zeros (shape : List Nat) (device : NdArrayDevice) :
    empty shape device = zeros shape device ∧
    (empty shape device).shape = shape ∧
    wf (empty shape device) ∧
    ∀ i, (empty shape device).data.getD i 0 = 0 :=
  ⟨rfl, rfl, by simp [empty, zeros, wf], fun i => getD_replicate_zero _ i⟩

/-- The element-count invariant of `sum_dim`. -/
theorem wf_sum_dim (t : NdArrayTensor Int) (dim : Nat) (h : dim < t.shape.length) :
    wf (sum_dim t dim) := by
  simp only [sum_dim, wf, List.length_map, List.length_range]
  rw [prod_set t.shape dim 1 h]
  ring

/-- The element-count invariant of `mean_dim`. -/
theorem wf_mean_dim (t : NdArrayTensor Int) (dim : Nat) (h : dim < t.shape.length) :
    wf (mean_dim t dim) := by
  simp only [mean_dim, wf, List.length_map]
  exact wf_sum_dim t dim h

/-- The element-count invariant of the `arg` reduction. -/
theorem wf_arg (t : NdArrayTensor Int) (dim : Nat) (cmp : Int → Int → Ordering)
    (hwf : wf t) (hdim : dim < t.shape.length) (hpos : ∀ x ∈ t.shape, 0 < x) :
    wf (arg t dim cmp) := by
  have hbs : 0 < t.shape.getD dim 0 := by
    apply hpos
    rw [List.getD_eq_getElem t.shape 0 hdim]
    exact List.getElem_mem hdim
  simp only [arg, wf]
  rw [argLoop_length cmp _ hbs t.data.length t.data (le_refl _)]
  rw [prod_set t.shape dim 1 hdim, hwf, prod_take_getD_drop t.shape dim hdim]
  have hfac : (t.shape.take dim).prod * t.shape.getD dim 0 * (t.shape.drop (dim + 1)).prod =
      (t.shape.take dim).prod * (t.shape.drop (dim + 1)).prod * t.shape.getD dim 0 := by
    ring
  rw [hfac, Nat.mul_div_cancel _ hbs]
  ring

/-- The element-count invariant of `cat`, under the agreement hypotheses of the
specification (same rank, every non-concatenated axis equal). -/
theorem wf_cat (tensors : List (NdArrayTensor Int)) (dim : Nat) (_hne : tensors ≠ [])
    (hdim : dim < (tensors.headD ⟨[], []⟩).shape.length)
    (hall : ∀ t ∈ tensors, wf t ∧ dim < t.shape.length ∧
      t.shape.take dim = (tensors.headD ⟨[], []⟩).shape.take dim ∧
      t.shape.drop (dim + 1) = (tensors.headD ⟨[], []⟩).shape.drop (dim + 1)) :
    wf (cat tensors dim) := by
  have hall2 : ∀ t ∈ tensors, t.data.length =
      ((tensors.headD ⟨[], []⟩).shape.take dim).prod *
        (t.shape.getD dim 0 * ((tensors.headD ⟨[], []⟩).shape.drop (dim + 1)).prod) := by
    intro t htm
    obtain ⟨hwt, hdt, htake, hdrop⟩ := hall t htm
    rw [hwt, prod_take_getD_drop t.shape dim hdt, htake, hdrop]
    ring
  simp only [cat, wf]
  rw [length_cat_data tensors dim ((tensors.headD ⟨[], []⟩).shape.take dim).prod
      ((tensors.headD ⟨[], []⟩).shape.drop (dim + 1)).prod hall2]
  rw [prod_set _ _ _ hdim]
  ring

/-- C7: `sum_dim` and `mean_dim` return a tensor of the same rank as the
input, with the reduced axis extent set to 1 and every other axis extent
unchanged; in particular reducing axis 1 of a `[2,3,4]` tensor yields shape
`[2,1,4]`, not `[2,4]`. -/
theorem sum_mean_dim_shape (t : NdArrayTensor Int) (dim : Nat)
    (hdim : dim < t.shape.length) :
    (sum_dim t dim).shape.length = t.shape.length ∧
    (sum_dim t dim).shape.getD dim 0 = 1 ∧
    (∀ j, j ≠ dim → (sum_dim t dim).shape.getD j 0 = t.shape.getD j 0) ∧
    (mean_dim t dim).shape.length = t.shape.length ∧
    (mean_dim t dim).shape.getD dim 0 = 1 ∧
    (∀ j, j ≠ dim → (mean_dim t dim).shape.getD j 0 = t.shape.getD j 0) ∧
    (sum_dim ⟨[2, 3, 4], List.replicate 24 0⟩ 1).shape = [2, 1, 4] ∧
    (mean_dim ⟨[2, 3, 4], List.replicate 24 0⟩ 1).shape = [2, 1, 4] := by
  have hs : (sum_dim t dim).shape = t.shape.set dim 1 := rfl
  have hm2 : (mean_dim t dim).shape = t.shape.set dim 1 := rfl
  refine ⟨?_, ?_, ?_, ?_, ?_, ?_, by decide, by decide⟩
  · rw [hs, List.length_set]
  · rw [hs]; exact getD_set_self t.shape dim 1 0 hdim
  · intro j hj; rw [hs]; exact getD_set_ne t.shape dim j 1 0 hj
  · rw [hm2, List.length_set]
  · rw [hm2]; exact getD_set_self t.shape dim 1 0 hdim
  · intro j hj; rw [hm2]; exact getD_set_ne t.shape dim j 1 0 hj

/-- Witness for C7 at the `[2,3,4]` tensor of the claim. -/
theorem sum_mean_dim_shape_witness :
    (1 : Nat) < (⟨[2, 3, 4], List.replicate 24 0⟩ : NdArrayTensor Int).shape.length ∧
      (sum_dim (⟨[2, 3, 4], List.replicate 24 0⟩ : NdArrayTensor Int) 1).shape.getD 1 0 = 1 :=
  ⟨by decide, (sum_mean_dim_shape ⟨[2, 3, 4], List.replicate 24 0⟩ 1 (by decide)).2.1⟩

/-- C8: every operation of the modelled backend preserves the element-count
invariant: each tensor it returns has the product of its per-axis extents
equal to the length of its dense storage. -/
theorem element_count_invariant :
    (∀ (d : Data Int) (dev : NdArrayDevice), d.wf → wf (from_data d dev)) ∧
    (∀ (sh : List Nat) (dev : NdArrayDevice), wf (zeros sh dev) ∧ wf (empty sh dev)) ∧
    (∀ (sh : List Nat) (dist : Distribution) (dev : NdArrayDevice) (seed : Option Nat),
      wf (random sh dist dev seed).1) ∧
    (∀ a b : NdArrayTensor Int, a.shape = b.shape → wf a → wf b →
      wf (add a b) ∧ wf (sub a b) ∧ wf (mul a b) ∧ wf (div a b) ∧
      wf (equal a b) ∧ wf (greater a b) ∧ wf (greater_equal a b) ∧
      wf (lower a b) ∧ wf (lower_equal a b)) ∧
    (∀ (a : NdArrayTensor Int) (s : Int), wf a →
      wf (add_scalar a s) ∧ wf (sub_scalar a s) ∧ wf (mul_scalar a s) ∧
      wf (div_scalar a s) ∧ wf (neg a) ∧ wf (relu a) ∧ wf (detach a) ∧
      wf (equal_scalar a s) ∧ wf (greater_scalar a s) ∧ wf (greater_equal_scalar a s) ∧
      wf (lower_scalar a s) ∧ wf (lower_equal_scalar a s)) ∧
    (∀ (f : Int → Int) (a : NdArrayTensor Int), wf a → wf (mapvUnary f a)) ∧
    (∀ (a : NdArrayTensor Int) (dev : NdArrayDevice), wf a → wf (to_device a dev)) ∧
    (∀ (t : NdArrayTensor Int) (m : NdArrayTensor Bool) (v : Int),
      t.shape = m.shape → wf t → wf m → wf (mask_fill t m v)) ∧
    (∀ t : NdArrayTensor Int, wf (sum t) ∧ wf (mean t)) ∧
    (∀ (t : NdArrayTensor Int) (dim : Nat), dim < t.shape.length →
      wf (sum_dim t dim) ∧ wf (mean_dim t dim)) ∧
    (∀ (t : NdArrayTensor Int) (dim : Nat), wf t → dim < t.shape.length →
      (∀ x ∈ t.shape, 0 < x) → wf (argmax t dim) ∧ wf (argmin t dim)) ∧
    (∀ (t : NdArrayTensor Int) (dim1 dim2 : Nat), wf (swap_dims t dim1 dim2)) ∧
    (∀ (t r : NdArrayTensor Int) (sh : List Nat), reshape t sh = some r → wf r) ∧
    (∀ (t : NdArrayTensor Int) (ranges : List (Nat × Nat)), wf (index t ranges)) ∧
    (∀ (t v : NdArrayTensor Int) (ranges : List (Nat × Nat)),
      wf (index_assign t ranges v)) ∧
    (∀ a b : NdArrayTensor Int, wf (matmul a b)) ∧
    (∀ (tensors : List (NdArrayTensor Int)) (dim : Nat), tensors ≠ [] →
      dim < (tensors.headD ⟨[], []⟩).shape.length →
      (∀ t ∈ tensors, wf t ∧ dim < t.shape.length ∧
        t.shape.take dim = (tensors.headD ⟨[], []⟩).shape.take dim ∧
        t.shape.drop (dim + 1) = (tensors.headD ⟨[], []⟩).shape.drop (dim + 1)) →
      wf (cat tensors dim)) := by
  refine ⟨?_, ?_, ?_, ?_, ?_, ?_, ?_, ?_, ?_, ?_, ?_, ?_, ?_, ?_, ?_, ?_, ?_⟩
  · exact fun d dev h => h
  · intro sh dev
    exact ⟨by simp [zeros, wf], by simp [empty, zeros, wf]⟩
  · intro sh dist dev seed
    simp [random, dataRandom, from_data, wf]
  · intro a b hsh ha hb
    refine ⟨?_, ?_, ?_, ?_, ?_, ?_, ?_, ?_, ?_⟩
    · exact length_zipWith_wf _ a b hsh ha hb
    · exact length_zipWith_wf _ a b hsh ha hb
    · exact length_zipWith_wf _ a b hsh ha hb
    · exact length_zipWith_wf _ a b hsh ha hb
    · simp only [equal, equal_scalar, sub, wf, List.length_map]
      exact length_zipWith_wf _ a b hsh ha hb
    · simp only [greater, greater_scalar, sub, wf, List.length_map]
      exact length_zipWith_wf _ a b hsh ha hb
    · simp only [greater_equal, greater_equal_scalar, sub, wf, List.length_map]
      exact length_zipWith_wf _ a b hsh ha hb
    · simp only [lower, lower_scalar, sub, wf, List.length_map]
      exact length_zipWith_wf _ a b hsh ha hb
    · simp only [lower_equal, lower_equal_scalar, sub, wf, List.length_map]
      exact length_zipWith_wf _ a b hsh ha hb
  · intro a s ha
    refine ⟨?_, ?_, ?_, ?_, ?_, ?_, ha, ?_, ?_, ?_, ?_, ?_⟩ <;>
      simp only [add_scalar, sub_scalar, mul_scalar, div_scalar, neg, relu,
        equal_scalar, greater_scalar, greater_equal_scalar, lower_scalar,
        lower_equal_scalar, wf, List.length_map] <;>
      exact ha
  · intro f a ha
    simp only [mapvUnary, wf, List.length_map]
    exact ha
  · exact fun a dev ha => ha
  · intro t m v hsh ht hm
    have hml : m.data.length = t.data.length := by rw [hm, ht, hsh]
    simp only [mask_fill, wf, List.length_zipWith, List.length_map]
    omega
  · intro t
    exact ⟨by simp [sum, wf], by simp [mean, wf]⟩
  · intro t dim hdim
    exact ⟨wf_sum_dim t dim hdim, wf_mean_dim t dim hdim⟩
  · intro t dim hwf hdim hpos
    exact ⟨wf_arg t dim cmp_min hwf hdim hpos, wf_arg t dim cmp_max hwf hdim hpos⟩
  · intro t dim1 dim2
    simp [swap_dims, wf]
  · intro t r sh h
    simp only [reshape] at h
    by_cases hc : t.data.length = sh.prod
    · rw [if_pos hc] at h
      injection h with h2
      rw [← h2]
      exact hc
    · rw [if_neg hc] at h
      cases h
  · intro t ranges
    simp [index, wf]
  · intro t v ranges
    simp [index_assign, wf]
  · intro a b
    simp only [matmul, wf, List.length_map, List.length_range, List.prod_append,
      List.prod_cons, List.prod_nil]
    ring
  · exact wf_cat

/-- Witness for C8 at a concrete pair of tensors. -/
theorem element_count_invariant_witness :
    wf (add ⟨[2], [1, 2]⟩ ⟨[2], [3, 4]⟩) :=
  (element_count_invariant.2.2.2.1 ⟨[2], [1, 2]⟩ ⟨[2], [3, 4]⟩ rfl (by decide) (by decide)).1

end BurnNdArray
